import Mathlib

set_option autoImplicit false

/-
Verification development for the isar-core storage engine.

Shallow embedding of the Rust sources:
  * `src/src/query/mod.rs` (query execution, de-duplication, sort, distinct,
    offset/limit),
  * `src/src/query/id_where_clause.rs` (id where-clauses and the overlap test),
  * `src/src/index/mod.rs` (unique index insertion, the replace policy),
  * `src/src/watch/change_set.rs` (change registration and watcher fan-out),
  * `src/src/schema/collection_schema.rs` (index validation),
  * `src/dart-ffi/src/filter.rs` (next/prev bound adjustment and the
    between-filter builder).

Machine integers are modelled as `Int`/`Nat` with explicit bounds where
overflow matters; fallible Rust code returns `Except IsarError`.
Definitions whose Rust source is not part of the repository snapshot are
explicitly marked `Modelled from the spec:` in their doc comment.
-/

namespace Isar

/-- Error taxonomy of the engine (spec §7); only the kinds exercised by the
claims are carried. `illegalArg` keeps the message produced by
`error::illegal_arg`. -/
inductive IsarError where
  | illegalArg (msg : String)
  | uniqueViolated
  deriving Repr, DecidableEq

/-- Sort direction, `query::Sort` in `src/src/query/mod.rs`. -/
inductive SortDir where
  | ascending
  | descending
  deriving Repr, DecidableEq

/-- The data key `IntKey(col_id, oid)`: 2-byte collection id followed by the
sign-flipped big-endian oid. Its byte order equals the order on the pair
`(colId, oid)`, so the pair itself is the model. -/
structure IntKey where
  colId : Nat
  oid : Int
  deriving Repr, DecidableEq

/-- Lookup in an association-list model of an lmdb database: the value stored
under the first (and, for the unique dbs, only) occurrence of the key. -/
def lookupKV {K V : Type} [DecidableEq K] (db : List (K × V)) (k : K) : Option V :=
  (db.find? (fun r => r.1 = k)).map (·.2)

/-! ### C1 — collection `put` as data-row upsert

The collection source (`collection.rs`) is not part of the snapshot; only its
tests (`src/tests/test_put.rs`) are. The data-row write of `put` is therefore
modelled from the spec. -/

/-- Modelled from the spec: step 3 of the `put` algorithm (spec §4.4), whose
Rust source (`IsarCollection::put`) is missing from the snapshot: "Upsert the
data row under `data_key(oid)`" with the primary db unique per oid (spec §6,
§9: "treat `put` as upsert (primary db unique per oid)"). An existing row for
the oid is overwritten in place; otherwise the row is appended. -/
def putDataRow {Ω : Type} (db : List (Int × Ω)) (oid : Int) (bytes : Ω) : List (Int × Ω) :=
  if db.any (fun r => r.1 = oid) then
    db.map (fun r => if r.1 = oid then (oid, bytes) else r)
  else
    db ++ [(oid, bytes)]

/-! ### C3/C4 — unique index insertion (`Index::create_for_object_key`)

From `src/src/index/mod.rs` lines 103–126. The state carries the index db
(a map from generated index key to the owning data key, as stored by
`put_no_override(key, id_key.as_bytes())`) together with the data db, so that
the `delete_existing` callback can act on both. -/

/-- State visible to `Index::create_for_object_key`: the index db and the
data db of the collection (the `Cursors` bundle of `src/src/txn`). -/
structure IndexDbState (K Ω : Type) where
  index : List (K × IntKey)
  data : List (Int × Ω)
  deriving Repr, DecidableEq

/-- The lmdb `put_no_override` primitive (spec §1 external collaborator):
fails, leaving the db unchanged, iff the key is already present; otherwise
inserts. Returns the new db and the success flag. -/
def putNoOverride {K : Type} [DecidableEq K] (db : List (K × IntKey)) (k : K)
    (v : IntKey) : List (K × IntKey) × Bool :=
  if (lookupKV db k).isSome then (db, false) else (db ++ [(k, v)], true)

/-- `Index::create_for_object_key` (`src/src/index/mod.rs` lines 103–126),
for a unique index (`self.unique = true`); `replace` is the index's replace
flag, `deleteExisting` the callback passed in by the collection, `idKey` the
data key `IntKey::new(self.col_id, oid)` of the object being put and `key`
the generated index key. Mirrors the source: on a successful
`put_no_override` the entry is stored; on collision, with `replace` the
callback is invoked with `id_key.get_id()` — the oid of the NEW object — and
the function returns `Ok` without retrying the insert; without `replace` it
fails with `UniqueViolated`. -/
def createForObjectKey {K Ω : Type} [DecidableEq K] (replace : Bool)
    (deleteExisting : IndexDbState K Ω → Int → IndexDbState K Ω)
    (st : IndexDbState K Ω) (idKey : IntKey) (key : K) :
    Except IsarError (IndexDbState K Ω) :=
  let res := putNoOverride st.index key idKey
  if res.2 then
    .ok { st with index := res.1 }
  else if replace then
    .ok (deleteExisting st idKey.oid)
  else
    .error .uniqueViolated

/-- Modelled from the spec: the collection's delete path (spec §4.4
"**delete:** read-before-write the data row; remove from every index using
the old bytes; delete data row"), whose Rust source is missing from the
snapshot. Removes the data row of `oid` in collection `colId` and every index
entry owned by that row (entries whose stored value is `data_key(oid)`). -/
def collectionDelete {K Ω : Type} (colId : Nat) (st : IndexDbState K Ω)
    (oid : Int) : IndexDbState K Ω :=
  { index := st.index.filter (fun e => e.2 ≠ IntKey.mk colId oid),
    data := st.data.filter (fun r => r.1 ≠ oid) }

/-! ### C2 — id where-clauses, the overlap test, and `Query::execute_raw`

From `src/src/query/id_where_clause.rs` and `src/src/query/mod.rs`. The data
db is modelled as the key-ordered association list of `(IntKey, object)` rows;
`iter_between` over `IntKey(prefix, lower) ..= IntKey(prefix, upper)` then
yields exactly the rows of that collection whose oid lies in the range, in
ascending (or, reversed, descending) oid order. -/

/-- `IdWhereClause` (`src/src/query/id_where_clause.rs`): the collection id
(source field `prefix`, named `pfx` here), the inclusive oid bounds and the
sort direction. -/
structure IdWhereClause where
  pfx : Nat
  lower : Int
  upper : Int
  sort : SortDir
  deriving Repr, DecidableEq

/-- `IdWhereClause::id_matches`: `self.lower <= oid && self.upper >= oid`. -/
def idMatches (wc : IdWhereClause) (oid : Int) : Bool :=
  wc.lower ≤ oid ∧ wc.upper ≥ oid

/-- `IdWhereClause::is_overlapping` (`src/src/query/id_where_clause.rs` lines
61–66): same `prefix` and one range CONTAINS the other — note this is
containment, not intersection. -/
def isOverlapping (wc other : IdWhereClause) : Bool :=
  wc.pfx = other.pfx ∧
    ((wc.lower ≤ other.lower ∧ wc.upper ≥ other.upper) ∨
      (other.lower ≤ wc.lower ∧ other.upper ≥ wc.upper))

/-- `Query::check_where_clauses_overlapping` (`src/src/query/mod.rs` lines
67–76): some pair `i < j` of clauses passes `is_overlapping`. -/
def checkWhereClausesOverlapping : List IdWhereClause → Bool
  | [] => false
  | wc :: rest => rest.any (isOverlapping wc) || checkWhereClausesOverlapping rest

/-- The rows a single id where-clause walks: the data-db rows of collection
`wc.pfx` whose oid is within `[wc.lower, wc.upper]`, in db (key) order,
reversed when the clause sorts descending (`Cursor::iter_between`). -/
def rangeRows {Ω : Type} (db : List (IntKey × Ω)) (wc : IdWhereClause) :
    List (Int × Ω) :=
  let rows := (db.filter (fun r => r.1.colId = wc.pfx ∧ idMatches wc r.1.oid)).map
    (fun r => (r.1.oid, r.2))
  match wc.sort with
  | .ascending => rows
  | .descending => rows.reverse

/-- The body of `IdWhereClause::iter` combined with the callback installed by
`Query::execute_raw` (`src/src/query/mod.rs` lines 91–99): for each row, when
the `result_ids` set is in use (`useSeen`), an oid already seen is skipped and
a fresh oid is inserted BEFORE the filter runs; then the filter is evaluated
and, when it holds, the row is emitted. Returns the final seen set together
with the emitted rows. -/
def wcIter {Ω : Type} (filter : Ω → Except IsarError Bool) (useSeen : Bool) :
    List Int → List (Int × Ω) → Except IsarError (List Int × List (Int × Ω))
  | seen, [] => .ok (seen, [])
  | seen, (id, o) :: rest =>
    if useSeen ∧ id ∈ seen then
      wcIter filter useSeen seen rest
    else
      let seen' := if useSeen then id :: seen else seen
      (filter o).bind fun b =>
        (wcIter filter useSeen seen' rest).map fun r =>
          (r.1, if b then (id, o) :: r.2 else r.2)

/-- The clause loop of `Query::execute_raw`: runs the clauses in the order
provided, threading the shared seen set, and concatenates their emissions. -/
def execRawGo {Ω : Type} (db : List (IntKey × Ω))
    (filter : Ω → Except IsarError Bool) (useSeen : Bool) :
    List Int → List IdWhereClause → Except IsarError (List Int × List (Int × Ω))
  | seen, [] => .ok (seen, [])
  | seen, wc :: rest =>
    (wcIter filter useSeen seen (rangeRows db wc)).bind fun r =>
      (execRawGo db filter useSeen r.1 rest).map fun r2 => (r2.1, r.2 ++ r2.2)

/-- `Query::execute_raw` (`src/src/query/mod.rs` lines 78–106) restricted to
id where-clauses, accumulating every emission (the `find_all` callback always
returns `true`): the `result_ids` set exists iff
`check_where_clauses_overlapping` held at query build time. -/
def executeRaw {Ω : Type} (db : List (IntKey × Ω)) (wcs : List IdWhereClause)
    (filter : Ω → Except IsarError Bool) : Except IsarError (List (Int × Ω)) :=
  (execRawGo db filter (checkWhereClausesOverlapping wcs) [] wcs).map (·.2)

/-! ### C5 — the sorted path's comparator

`Query::execute_sorted` (`src/src/query/mod.rs` lines 165–191) collects the
matches into a buffer and sorts it with `sort_unstable_by` under the closure
embedded below. The per-property comparison `IsarObject::compare_property`
lives in `object/isar_object.rs`, which is missing from the snapshot. -/

/-- Test object of the query tests (`fill_int_col`): an oid plus one `Int`
property. -/
structure IntObj where
  id : Int
  intVal : Int
  deriving Repr, DecidableEq

/-- Tag for the sort/distinct property lists; the query tests sort on the
single `Int` property. -/
inductive IntObjProp where
  | idProp
  | intProp
  deriving Repr, DecidableEq

/-- Modelled from the spec: `IsarObject::compare_property` (the source
`object/isar_object.rs` is missing from the snapshot) — per-property
comparison in the documented per-type order (spec §4.8/§8.6); for integral
properties this is numeric order (the null sentinel `i32::MIN`/`i64::MIN` is
the numeric minimum, hence smallest). -/
def compareProperty (o1 o2 : IntObj) : IntObjProp → Ordering
  | .idProp => compare o1.id o2.id
  | .intProp => compare o1.intVal o2.intVal

/-- The comparator closure passed to `sort_unstable_by` in
`Query::execute_sorted` (`src/src/query/mod.rs` lines 172–184): first
non-equal property comparison wins, reversed for a descending key; equal on
all keys gives `Ordering::Equal`. -/
def queryCompare : List (IntObjProp × SortDir) → IntObj → IntObj → Ordering
  | [], _, _ => .eq
  | (p, s) :: rest, o1, o2 =>
    let ord := compareProperty o1 o2 p
    if ord ≠ .eq then
      match s with
      | .ascending => ord
      | .descending => ord.swap
    else
      queryCompare rest o1 o2

/-! ### C6 — the unsorted path: distinct and offset/limit wrappers

`Query::execute_unsorted` (`src/src/query/mod.rs` lines 108–163) wraps the
user callback first in `add_distinct_unsorted` and then in
`add_offset_limit_unsorted`, so the offset/limit wrapper RECEIVES each raw
filter-passing object first and only forwards it to the distinct wrapper.
`executeUnsortedDistinct` runs exactly that composed pipeline over the stream
of raw filter-passing matches (with the accumulate-all user callback):
`count` and `hashes` are the mutable captures of the two closures,
`maxCount = limit.saturating_add(offset)`. -/

/-- The composed unsorted pipeline with a non-empty distinct list, from
`src/src/query/mod.rs` lines 112–115, 122–163. `hash` is the wyhash of the
selected distinct properties (`IsarObject::hash_property` folded by
`WyHash`). -/
def executeUnsortedGo {Ω : Type} (hash : Ω → Nat) (offset limit : Nat) :
    Nat → List Nat → List Ω → List Ω
  | _, _, [] => []
  | count, hashes, o :: rest =>
    let count' := count + 1
    if count' > limit + offset then []
    else if count' > offset then
      let h := hash o
      if h ∈ hashes then executeUnsortedGo hash offset limit count' hashes rest
      else o :: executeUnsortedGo hash offset limit count' (h :: hashes) rest
    else executeUnsortedGo hash offset limit count' hashes rest

/-- `Query::execute_unsorted` with distinct properties present, as a function
from the raw filter-passing match stream to the emitted objects. -/
def executeUnsortedDistinct {Ω : Type} (hash : Ω → Nat) (offset limit : Nat)
    (raw : List Ω) : List Ω :=
  executeUnsortedGo hash offset limit 0 [] raw

/-- Modelled from the spec: distinct applied on its own (spec §4.8 step 4
"apply distinct (by hashing selected properties with `wyhash`, discarding
collisions)"): keep each object whose hash was not seen before. `seen` is the
set of hashes already kept. -/
def dedupByHash {Ω : Type} (hash : Ω → Nat) : List Nat → List Ω → List Ω
  | _, [] => []
  | seen, o :: rest =>
    let h := hash o
    if h ∈ seen then dedupByHash hash seen rest
    else o :: dedupByHash hash (h :: seen) rest

/-- Modelled from the spec: the unsorted execution policy as the claim and
spec §4.8 step 4 state it — "apply distinct …, then apply `offset`/`limit`".
Used as the specification side of the C6 comparison. -/
def specUnsortedDistinct {Ω : Type} (hash : Ω → Nat) (offset limit : Nat)
    (raw : List Ω) : List Ω :=
  ((dedupByHash hash [] raw).drop offset).take limit

/-! ### C7 — `ChangeSet::register_change` / `notify_watchers`

From `src/src/watch/change_set.rs`. Watchers are identified by their
`Watcher::get_id()` (a `Nat` here); `changed_watchers` is a `HashMap` keyed by
that id, modelled as the insertion-ordered duplicate-free list of inserted
ids. The per-collection registry entry (`isar_watchers::get_col_watchers`)
holds the plain collection watchers, the per-oid object watchers and the
query watchers with their `matches_wc_filter` predicate. -/

/-- Per-collection watcher registry entry, `watch/isar_watchers.rs` (missing
from the snapshot; the shape is taken from the field accesses in
`change_set.rs`: `cw.watchers`, `cw.object_watchers.get(&oid)`,
`cw.query_watchers` iterated as `(q, w)` pairs). -/
structure ColWatchers (Ω : Type) where
  watchers : List Nat
  objectWatchers : List (Int × List Nat)
  queryWatchers : List ((IntKey → Ω → Bool) × Nat)

/-- The registry under the global watchers mutex: per-collection entries. -/
def getColWatchers {Ω : Type} (reg : List (Nat × ColWatchers Ω)) (colId : Nat) :
    ColWatchers Ω :=
  (lookupKV reg colId).getD ⟨[], [], []⟩

/-- One of the two `for w in …` loops of `ChangeSet::register_change`
(`src/src/watch/change_set.rs` lines 23–31 and 33–41): insert each watcher id
into `changed_watchers`; as soon as `insert` reports the id was already
present (`is_some`), `break`. -/
def insertAllWatchers : List Nat → List Nat → List Nat
  | changed, [] => changed
  | changed, w :: ws =>
    if w ∈ changed then changed
    else insertAllWatchers (changed ++ [w]) ws

/-- The query-watcher loop of `ChangeSet::register_change` (lines 43–48): a
query watcher is added when it is not yet in `changed_watchers` and its query
matches the change (`matches_wc_filter`); no `break` here. -/
def insertQueryWatchers {Ω : Type} (oid : IntKey) (obj : Ω) :
    List Nat → List ((IntKey → Ω → Bool) × Nat) → List Nat
  | changed, [] => changed
  | changed, qw :: qws =>
    insertQueryWatchers oid obj
      (if qw.2 ∉ changed ∧ qw.1 oid obj then changed ++ [qw.2] else changed) qws

/-- Helper predicate for the change-set invariant: every suffix of the
watcher list starting at an id already in the change set lies wholly in the
change set. This is exactly what makes the `break` in `register_change`
harmless: the loop inserts list-order prefixes, so presence of an id implies
presence of everything after it. -/
def suffClosed (changed : List Nat) : List Nat → Prop
  | [] => True
  | w :: ws => (w ∈ changed → ∀ u ∈ ws, u ∈ changed) ∧ suffClosed changed ws

/-- `ChangeSet::register_change(oid, object)` (`src/src/watch/change_set.rs`
lines 20–49): `col_id = oid.get_prefix()`; runs the collection-watcher loop,
then the object-watcher loop for `oid`, then the query-watcher loop. -/
def registerChange {Ω : Type} (reg : List (Nat × ColWatchers Ω))
    (changed : List Nat) (oid : IntKey) (obj : Ω) : List Nat :=
  let cw := getColWatchers reg oid.colId
  let c1 := insertAllWatchers changed cw.watchers
  let c2 := insertAllWatchers c1 ((lookupKV cw.objectWatchers oid.oid).getD [])
  insertQueryWatchers oid obj c2 cw.queryWatchers

/-- The whole sequence of `register_change` calls of one write transaction,
starting from the empty change set (`ChangeSet::new`). -/
def registerChanges {Ω : Type} (reg : List (Nat × ColWatchers Ω))
    (changes : List (IntKey × Ω)) : List Nat :=
  changes.foldl (fun ch c => registerChange reg ch c.1 c.2) []

/-- `ChangeSet::notify_watchers` (lines 51–55): invoke the callback of every
entry of `changed_watchers`, once per stored entry; the result is the list of
watcher ids notified, in order. -/
def notifyWatchers (changed : List Nat) : List Nat :=
  changed

/-! ### C8 — `next`/`prev` bound adjustment and the between-filter builder

From `src/dart-ffi/src/filter.rs`. The non-NaN, non-infinite floats are
modelled, order-isomorphically, by their index in the IEEE-754 total order of
finite values: `finite 0` is `f32::MIN`/`f64::MIN` (the most negative finite
value), `finite maxIdx` is `f32::MAX`/`f64::MAX`, and `next_after` towards
`±∞` is the index successor/predecessor (reaching `+∞` above `maxIdx`). NaN
is a single canonical value. -/

/-- A float value: NaN, the two infinities, or the `k`-th smallest finite
value. -/
inductive FVal where
  | nan
  | neginf
  | posinf
  | finite (k : Nat)
  deriving Repr, DecidableEq

/-- Index of `f32::MAX` in the finite-value order (the number of finite `f32`
bit patterns minus one); the exact figure is irrelevant to every claim, only
`0 < f32MaxIdx` matters. -/
def f32MaxIdx : Nat := 4278190079

/-- `next_float`/`next_double` (`src/dart-ffi/src/filter.rs` lines 114–124,
144–154): `+∞` has no successor; the successor of `-∞` is `MIN` (= `finite 0`);
the successor of NaN is `-∞`; a finite value steps to the next float towards
`+∞` (`next_after(value, INFINITY)`), reaching `+∞` past `MAX`. -/
def nextFloatIdx (maxIdx : Nat) : FVal → Option FVal
  | .posinf => none
  | .neginf => some (.finite 0)
  | .nan => some .neginf
  | .finite k => some (if k = maxIdx then .posinf else .finite (k + 1))

/-- `prev_float`/`prev_double` (`src/dart-ffi/src/filter.rs` lines 126–134,
156–164): the predecessor of `+∞` is `MIN` (= `finite 0`, i.e. `f32::MIN` —
exactly as in the source, NOT `f32::MAX`); `-∞` and NaN have no predecessor;
a finite value steps towards `-∞` (`next_after(value, NEG_INFINITY)`),
reaching `-∞` below `MIN`. -/
def prevFloatIdx : FVal → Option FVal
  | .posinf => some (.finite 0)
  | .neginf => none
  | .nan => none
  | .finite k => some (if k = 0 then .neginf else .finite (k - 1))

/-- Largest `i64` value, `i64::MAX`. -/
def i64Max : Int := 2 ^ 63 - 1

/-- Smallest `i64` value, `i64::MIN`. -/
def i64Min : Int := -(2 ^ 63)

/-- `next_long` (`filter.rs` lines 136–138): `checked_add(1)` on `i64`. -/
def nextLong (v : Int) : Option Int :=
  if v = i64Max then none else some (v + 1)

/-- `prev_long` (`filter.rs` lines 140–142): `checked_sub(1)` on `i64`. -/
def prevLong (v : Int) : Option Int :=
  if v = i64Min then none else some (v - 1)

/-- A property of a collection: `(data_type, offset)` (spec §3). Only its
identity matters to the filter builder, which stores the property looked up
by index. The data type is left as a plain tag. -/
structure FProperty where
  tag : Nat
  deriving Repr, DecidableEq

/-- The filters the C8 builders construct: `Static(bool)` or a between filter
holding the resolved property and the adjusted inclusive bounds
(`FloatBetween`/`DoubleBetween` share a shape, as do `LongBetween` and the
other integral ones). -/
inductive FFilter where
  | static (value : Bool)
  | floatBetween (p : FProperty) (lower upper : FVal)
  | longBetween (p : FProperty) (lower upper : Int)
  deriving Repr, DecidableEq

/-- The float/double instance of the `filter_between_ffi!` macro
(`src/dart-ffi/src/filter.rs` lines 58–96): an exclusive bound is advanced /
retreated by `next`/`prev`; if the property index is invalid the call fails
with an illegal-argument error; if either adjusted bound is `None` the
constructed filter is `Static(false)`, otherwise the between filter on the
adjusted bounds. (The core `FloatBetween::filter` constructor lives in
`query/filter.rs`, missing from the snapshot; per spec §4.7 it builds the
inclusive between filter, modelled here as `FFilter.floatBetween`.) -/
def isarFilterFloatBetween (maxIdx : Nat) (props : List (String × FProperty))
    (lower : FVal) (includeLower : Bool) (upper : FVal) (includeUpper : Bool)
    (propertyIndex : Nat) : Except IsarError FFilter :=
  let l := if includeLower then some lower else nextFloatIdx maxIdx lower
  let u := if includeUpper then some upper else prevFloatIdx upper
  match props.get? propertyIndex with
  | none => .error (.illegalArg "Property does not exist.")
  | some p =>
    match l, u with
    | some l, some u => .ok (.floatBetween p.2 l u)
    | _, _ => .ok (.static false)

/-- The long instance of the `filter_between_ffi!` macro, with
`next_long`/`prev_long` as the adjacency functions. -/
def isarFilterLongBetween (props : List (String × FProperty)) (lower : Int)
    (includeLower : Bool) (upper : Int) (includeUpper : Bool)
    (propertyIndex : Nat) : Except IsarError FFilter :=
  let l := if includeLower then some lower else nextLong lower
  let u := if includeUpper then some upper else prevLong upper
  match props.get? propertyIndex with
  | none => .error (.illegalArg "Property does not exist.")
  | some p =>
    match l, u with
    | some l, some u => .ok (.longBetween p.2 l u)
    | _, _ => .ok (.static false)

/-! ### C9 — `CollectionSchema::add_index`

From `src/src/schema/collection_schema.rs` lines 65–123. -/

/-- Data types of properties. The source `object/data_type.rs` is missing
from the snapshot; the constructors are the closed set of spec §3 plus the
`Bool` and `Bytes` members exercised by the schema tests. -/
inductive DataType where
  | bool
  | byte
  | int
  | float
  | long
  | double
  | string
  | bytes
  | byteList
  | intList
  | longList
  | floatList
  | doubleList
  | stringList
  deriving Repr, DecidableEq

/-- Modelled from the spec: `DataType::is_dynamic` (source missing from the
snapshot) — spec §3: scalar types have a fixed static size, strings, bytes
and list types are variable-length ("dynamic") and addressed through the
offset+length header field. -/
def DataType.isDynamic : DataType → Bool
  | .bool | .byte | .int | .float | .long | .double => false
  | .string | .bytes | .byteList | .intList | .longList | .floatList
  | .doubleList | .stringList => true

/-- `PropertySchema`: name and data type. -/
structure PropertySchema where
  name : String
  dataType : DataType
  deriving Repr, DecidableEq

/-- `IndexSchema` as created by `IndexSchema::new(property_names, unique,
hash_value)` (the `id` assigned later plays no role in `add_index`). -/
structure IndexSchema where
  propertyNames : List String
  unique : Bool
  hashValue : Bool
  deriving Repr, DecidableEq

/-- `CollectionSchema`: name, properties, indexes (the optional `id` plays no
role in `add_index`). -/
structure CollectionSchema where
  name : String
  properties : List PropertySchema
  indexes : List IndexSchema
  deriving Repr, DecidableEq

/-- The prefix-duplicate test of `add_index` (lines 79–82): truncate both
name lists to the shorter length and compare (`i.property_names[..min_len] ==
property_names[..min_len]`). -/
def isDuplicateIndex (i : IndexSchema) (propertyNames : List String) : Bool :=
  let minLen := min i.propertyNames.length propertyNames.length
  i.propertyNames.take minLen = propertyNames.take minLen

/-- The property resolution of `add_index` (lines 87–95): each name is looked
up with `find` (first schema property with that name); `collect::<Option<_>>`
fails if any is missing. -/
def resolveProps (col : CollectionSchema) : List String → Option (List PropertySchema)
  | [] => some []
  | n :: rest =>
    match col.properties.find? (fun p => p.name = n), resolveProps col rest with
    | some p, some ps => some (p :: ps)
    | _, _ => none

/-- `CollectionSchema::add_index` (`src/src/schema/collection_schema.rs`
lines 65–123), with the checks in source order: non-empty, at most three
properties, no prefix-duplicate of an existing index, all properties exist,
no dynamic type except `String`, `hash_value` only with a string property,
and — without `hash_value` — strings only in terminal position (the source
loop errors for a `String` at `index < properties.len() - 1`, i.e. anywhere
in `dropLast`). On success the new `IndexSchema` is appended. -/
def addIndex (col : CollectionSchema) (propertyNames : List String)
    (unique hashValue : Bool) : Except IsarError CollectionSchema :=
  if propertyNames.isEmpty then
    .error (.illegalArg "At least one property needs to be added to a valid index.")
  else if propertyNames.length > 3 then
    .error (.illegalArg "No more than three properties may be used as a composite index.")
  else if col.indexes.any (fun i => isDuplicateIndex i propertyNames) then
    .error (.illegalArg "Index already exists.")
  else
    match resolveProps col propertyNames with
    | none => .error (.illegalArg "Index property does not exist.")
    | some properties =>
      if properties.any (fun p => p.dataType.isDynamic ∧ p.dataType ≠ .string) then
        .error (.illegalArg "Illegal index data type.")
      else if ¬ properties.any (fun p => p.dataType = .string) ∧ hashValue then
        .error (.illegalArg "Only string indexes can be hashed.")
      else if ¬ hashValue ∧ properties.dropLast.any (fun p => p.dataType = .string) then
        .error (.illegalArg "Non-hashed string indexes must only be at the end of a composite index.")
      else
        .ok { col with
          indexes := col.indexes ++ [⟨propertyNames, unique, hashValue⟩] }

/-! ### C10 — `Query::matches_wc_filter`

From `src/src/query/mod.rs` lines 216–227. The where-clauses' `matches` and
the filter's `evaluate` are the parameters; the claim is about the logic of
`matches_wc_filter` itself. -/

/-- `Query::matches_wc_filter(id, object)`: `false` when no where-clause
matches; otherwise the filter's verdict, with an evaluation ERROR mapped to
`true` (`filter.evaluate(object, None).unwrap_or(true)`), and `true` when
there is no filter. -/
def matchesWcFilter {Ω : Type} (wcMatches : List (Int → Ω → Bool))
    (filter : Option (Ω → Except IsarError Bool)) (id : Int) (obj : Ω) : Bool :=
  if ¬ wcMatches.any (fun wc => wc id obj) then
    false
  else
    match filter with
    | none => true
    | some f =>
      match f obj with
      | .ok b => b
      | .error _ => true

/-! ## Theorems -/

/-! ### C1 -/

theorem putDataRow_filter_of_not_mem {Ω : Type} (db : List (Int × Ω)) (oid : Int)
    (bytes : Ω) (h : ∀ r ∈ db, r.1 ≠ oid) :
    (db.map (fun r => if r.1 = oid then (oid, bytes) else r)).filter
      (fun r => r.1 = oid) = [] := by
  induction db with
  | nil => rfl
  | cons r db ih =>
    have hr : r.1 ≠ oid := h r (by simp)
    have ht := ih (fun r' hr' => h r' (by simp [hr']))
    simp [hr, ht]

/-- C1: `put` is an upsert — putting an object whose oid is already present
in the data db leaves exactly one row for that oid, and that row holds the
new object's bytes (the prior row is overwritten, no second row is added). -/
theorem c1_put_is_upsert {Ω : Type} (db : List (Int × Ω)) (oid : Int) (bytes : Ω)
    (hnodup : (db.map Prod.fst).Nodup) (hmem : oid ∈ db.map Prod.fst) :
    (putDataRow db oid bytes).filter (fun r => r.1 = oid) = [(oid, bytes)] := by
  have hany : db.any (fun r => decide (r.1 = oid)) = true := by
    rw [List.any_eq_true]
    obtain ⟨r, hr, hr2⟩ := List.mem_map.mp hmem
    exact ⟨r, hr, by simpa using hr2⟩
  rw [putDataRow, if_pos hany]
  clear hany
  induction db with
  | nil => simp at hmem
  | cons r db ih =>
    rw [List.map_cons, List.nodup_cons] at hnodup
    obtain ⟨hr1, hr2⟩ := hnodup
    by_cases hcase : r.1 = oid
    · have hnm : ∀ r' ∈ db, r'.1 ≠ oid := by
        intro r' hmem' heq
        have hin : r'.1 ∈ db.map Prod.fst := List.mem_map_of_mem Prod.fst hmem'
        rw [heq, ← hcase] at hin
        exact hr1 hin
      simp [hcase, putDataRow_filter_of_not_mem db oid bytes hnm]
    · have hmem' : oid ∈ db.map Prod.fst := by
        rcases (by simpa using hmem : oid = r.1 ∨ oid ∈ db.map Prod.fst) with h | h
        · exact absurd h.symm hcase
        · exact h
      simp [hcase, ih hr2 hmem']

/-- C1 witness: a concrete data db with rows for oids 1 and 2; overwriting
oid 1 leaves exactly the new row for oid 1. -/
theorem c1_put_is_upsert_witness :
    (putDataRow [(1, 10), (2, 20)] 1 (99 : Nat)).filter (fun r => r.1 = 1)
      = [(1, 99)] :=
  c1_put_is_upsert [(1, 10), (2, 20)] 1 99 (by decide) (by decide)

/-! ### C4 -/

/-- C4: for a unique, non-replace index, the first insert of a generated key
succeeds and stores the data key under it, while an insert of a key already
owned by a different object fails with `UniqueViolated`. -/
theorem c4_unique_violated {K Ω : Type} [DecidableEq K]
    (deleteExisting : IndexDbState K Ω → Int → IndexDbState K Ω)
    (st : IndexDbState K Ω) (idKey : IntKey) (key : K) :
    (lookupKV st.index key = none →
      createForObjectKey false deleteExisting st idKey key
        = .ok { st with index := st.index ++ [(key, idKey)] }) ∧
    (∀ owner, lookupKV st.index key = some owner → owner ≠ idKey →
      createForObjectKey false deleteExisting st idKey key
        = .error .uniqueViolated) := by
  constructor
  · intro hnone
    simp [createForObjectKey, putNoOverride, hnone]
  · intro owner hsome _
    simp [createForObjectKey, putNoOverride, hsome]

/-- C4 witness: concrete index db — inserting key 5 for oid 1 into an empty
index succeeds; re-inserting key 5 for oid 2 fails with `UniqueViolated`. -/
theorem c4_unique_violated_witness :
    createForObjectKey (K := Nat) (Ω := Nat) false (fun st _ => st)
        ⟨[], []⟩ ⟨0, 1⟩ 5 = .ok ⟨[(5, ⟨0, 1⟩)], []⟩ ∧
    createForObjectKey (K := Nat) (Ω := Nat) false (fun st _ => st)
        ⟨[(5, ⟨0, 1⟩)], []⟩ ⟨0, 2⟩ 5 = .error .uniqueViolated := by
  constructor
  · exact (c4_unique_violated (fun st _ => st) ⟨[], []⟩ ⟨0, 1⟩ 5).1 (by decide)
  · exact (c4_unique_violated (fun st _ => st) ⟨[(5, ⟨0, 1⟩)], []⟩ ⟨0, 2⟩ 5).2
      ⟨0, 1⟩ (by decide) (by decide)

/-! ### C3 -/

/-- C3: the claim fails on the code — on a unique/replace collision,
`create_for_object_key` passes the NEW object's oid to `delete_existing` and
never retries the insert. At the concrete failing input (index key 5 owned by
oid 1's data key, data row for oid 1 present, new object oid 2): with the
collection delete path as callback the call returns `Ok` with the state
UNCHANGED — oid 1's row survives and key 5 still points at oid 1, not oid 2;
with a recording callback, the oid handed to `delete_existing` is seen to be
2, the new oid. -/
theorem c3_replace_deletes_new_oid_and_does_not_retry :
    createForObjectKey (K := Nat) (Ω := Nat) true (collectionDelete 0)
        ⟨[(5, ⟨0, 1⟩)], [(1, 11)]⟩ ⟨0, 2⟩ 5
      = .ok ⟨[(5, ⟨0, 1⟩)], [(1, 11)]⟩ ∧
    lookupKV [(5, (⟨0, 1⟩ : IntKey))] 5 = some ⟨0, 1⟩ ∧
    (IntKey.mk 0 1) ≠ ⟨0, 2⟩ ∧
    createForObjectKey (K := Nat) (Ω := Nat) true
        (fun st oid => ⟨st.index, st.data ++ [(oid, 0)]⟩)
        ⟨[(5, ⟨0, 1⟩)], [(1, 11)]⟩ ⟨0, 2⟩ 5
      = .ok ⟨[(5, ⟨0, 1⟩)], [(1, 11), (2, 0)]⟩ := by
  refine ⟨?_, by decide, by decide, ?_⟩ <;> rfl

/-! ### C10 -/

/-- C10: `matches_wc_filter` returns `false` whenever no where-clause matches
the change, regardless of the filter (which is not consulted); and when some
where-clause matches and the filter's evaluation errors, it returns `true`,
so the query watcher fires despite the evaluation error. -/
theorem c10_matches_wc_filter {Ω : Type} (wcs : List (Int → Ω → Bool))
    (id : Int) (obj : Ω) :
    ((∀ wc ∈ wcs, wc id obj = false) →
      ∀ filter, matchesWcFilter wcs filter id obj = false) ∧
    ((∃ wc ∈ wcs, wc id obj = true) →
      ∀ f e, f obj = .error e → matchesWcFilter wcs (some f) id obj = true) := by
  constructor
  · intro hnone filter
    have : wcs.any (fun wc => wc id obj) = false := by
      rw [List.any_eq_false]; simpa using hnone
    simp [matchesWcFilter, this]
  · intro hsome f e herr
    have : wcs.any (fun wc => wc id obj) = true := List.any_eq_true.mpr hsome
    simp [matchesWcFilter, this, herr]

/-- C10 witness: one where-clause matching exactly id 1, an always-erroring
filter — at id 2 the result is `false`, at id 1 it is `true`. -/
theorem c10_matches_wc_filter_witness :
    matchesWcFilter (Ω := Nat) [fun i _ => i = 1]
      (some (fun _ => .error .uniqueViolated)) 2 0 = false ∧
    matchesWcFilter (Ω := Nat) [fun i _ => i = 1]
      (some (fun _ => .error .uniqueViolated)) 1 0 = true := by
  constructor
  · exact (c10_matches_wc_filter [fun i _ => i = 1] 2 0).1 (by simp)
      (some (fun _ => .error .uniqueViolated))
  · exact (c10_matches_wc_filter [fun i _ => i = 1] 1 0).2
      ⟨fun i _ => i = 1, by simp⟩ (fun _ => .error .uniqueViolated)
      .uniqueViolated rfl

/-! ### C5 -/

/-- C5: the code contradicts the claimed stability. The sorted path's
comparator (passed to `sort_unstable_by`) declares the two tied objects of
the repository's own sorted-query scenario (oids 5 and 6, both with int
value 2, sorted ascending on the int property) EQUAL, so it cannot enforce
any relative order of ties — and `slice::sort_unstable_by`, by its contract,
may reorder equal elements; nothing in the code realizes the claimed stable
sort. -/
theorem c5_sorted_comparator_ties :
    queryCompare [(.intProp, .ascending)] ⟨5, 2⟩ ⟨6, 2⟩ = .eq ∧
    (IntObj.mk 5 2) ≠ ⟨6, 2⟩ := by
  decide

/-! ### C8 -/

/-- C8 counterexample: the claim says an exclusive lower bound of NaN must
reduce the clause to the empty static filter `false` (nothing being greater
than NaN). On the code, `next_float(NaN) = Some(NEG_INFINITY)` — NaN sits at
the BOTTOM of the adjacency order (it is the float null sentinel) — so a
float-between filter with exclusive lower bound NaN and inclusive upper bound
`+∞` is built as the full-range between filter, not as `Static(false)`. -/
theorem c8_nan_lower_bound_not_static_false :
    isarFilterFloatBetween f32MaxIdx [("value", ⟨0⟩)] .nan false .posinf true 0
      = .ok (.floatBetween ⟨0⟩ .neginf .posinf) ∧
    FFilter.floatBetween ⟨0⟩ .neginf .posinf ≠ .static false := by
  exact ⟨rfl, by decide⟩

/-- C8 amended: the adjacency functions treat NaN as the smallest float value
(the null sentinel): `next(NaN) = -∞` and `prev(NaN) = None`; `next` is
undefined exactly at `+∞` and `prev` exactly at `-∞` and NaN (with the quirk
that `prev(+∞)` is `MIN`, the smallest finite value, not `MAX`); for `Long`,
`next`/`prev` are undefined exactly at `i64::MAX`/`i64::MIN`. The builder
produces the empty static filter `false` exactly when an exclusive bound has
no successor/predecessor — in particular for an exclusive lower bound of
`i64::MAX`, of `+∞`, or an exclusive upper bound of NaN — and the between
filter on the adjusted bounds otherwise. -/
theorem c8_adjacency_amended :
    (∀ maxIdx v, nextFloatIdx maxIdx v = none ↔ v = .posinf) ∧
    (∀ v, prevFloatIdx v = none ↔ v = .neginf ∨ v = .nan) ∧
    nextFloatIdx f32MaxIdx .nan = some .neginf ∧
    prevFloatIdx .posinf = some (.finite 0) ∧
    (∀ v, nextLong v = none ↔ v = i64Max) ∧
    (∀ v, prevLong v = none ↔ v = i64Min) ∧
    (∀ props name p lower iL upper iU idx,
      props.get? idx = some (name, p) →
        (isarFilterFloatBetween f32MaxIdx props lower iL upper iU idx
            = .ok (.static false) ↔
          ((iL = false ∧ nextFloatIdx f32MaxIdx lower = none) ∨
            (iU = false ∧ prevFloatIdx upper = none)))) ∧
    (∀ props name p lower iL upper iU idx,
      props.get? idx = some (name, p) →
        (isarFilterLongBetween props lower iL upper iU idx
            = .ok (.static false) ↔
          ((iL = false ∧ nextLong lower = none) ∨
            (iU = false ∧ prevLong upper = none)))) := by
  refine ⟨?_, ?_, rfl, rfl, ?_, ?_, ?_, ?_⟩
  · intro maxIdx v
    cases v <;> simp [nextFloatIdx]
  · intro v
    cases v <;> simp [prevFloatIdx]
  · intro v
    simp [nextLong]
  · intro v
    simp [prevLong]
  · intro props name p lower iL upper iU idx hidx
    rw [isarFilterFloatBetween, hidx]
    cases iL <;> cases iU <;>
      rcases hl : nextFloatIdx f32MaxIdx lower with _ | l <;>
        rcases hu : prevFloatIdx upper with _ | u <;>
          simp [hl, hu]
  · intro props name p lower iL upper iU idx hidx
    rw [isarFilterLongBetween, hidx]
    cases iL <;> cases iU <;>
      rcases hl : nextLong lower with _ | l <;>
        rcases hu : prevLong upper with _ | u <;>
          simp [hl, hu]

/-- C8 amended witness: an exclusive lower bound of `i64::MAX` on a long
between filter yields the empty static filter `false`. -/
theorem c8_adjacency_amended_witness :
    isarFilterLongBetween [("value", ⟨0⟩)] i64Max false 0 true 0
      = .ok (.static false) :=
  (c8_adjacency_amended.2.2.2.2.2.2.2 [("value", ⟨0⟩)] "value" ⟨0⟩ i64Max
    false 0 true 0 rfl).mpr (Or.inl ⟨rfl, by simp [nextLong]⟩)

/-! ### C6 -/

/-- C6 counterexample: the claim says distinct is applied before
offset/limit, so the offset skips distinct results. Concretely (distinct on
a property hashing each object to itself, offset 1, limit 10, raw
filter-passing matches `[7, 7]`): applying distinct first leaves `[7]` and
the offset then skips it, yielding `[]` — but the code yields `[7]`, because
the offset/limit wrapper counts the raw matches (skipping the first `7`
before it is ever hashed) and the distinct wrapper only sees the second. -/
theorem c6_offset_skips_raw_matches :
    executeUnsortedDistinct (fun o => o) 1 10 [7, 7] = [7] ∧
    specUnsortedDistinct (fun o => o) 1 10 [7, 7] = [] ∧
    ([7] : List Nat) ≠ [] := by
  decide

theorem executeUnsortedGo_eq {Ω : Type} (hash : Ω → Nat) (offset limit : Nat) :
    ∀ (raw : List Ω) (count : Nat) (hashes : List Nat),
      executeUnsortedGo hash offset limit count hashes raw =
        dedupByHash hash hashes
          ((raw.take (limit + offset - count)).drop (offset - count)) := by
  intro raw
  induction raw with
  | nil => intro count hashes; simp [executeUnsortedGo, dedupByHash]
  | cons o rest ih =>
    intro count hashes
    simp only [executeUnsortedGo]
    by_cases h1 : count + 1 > limit + offset
    · rw [if_pos h1]
      have hz : limit + offset - count = 0 := by omega
      simp [hz, dedupByHash]
    · rw [if_neg h1]
      have hm : limit + offset - count = (limit + offset - (count + 1)) + 1 := by
        omega
      by_cases h2 : count + 1 > offset
      · rw [if_pos h2]
        have hz : offset - count = 0 := by omega
        have hz2 : offset - (count + 1) = 0 := by omega
        rw [hm, hz, List.take_succ_cons, List.drop_zero]
        simp only [dedupByHash]
        by_cases h3 : hash o ∈ hashes
        · rw [if_pos h3, ih (count + 1) hashes, hz2, List.drop_zero, if_pos h3]
        · rw [if_neg h3, ih (count + 1) (hash o :: hashes), hz2, List.drop_zero,
            if_neg h3]
      · rw [if_neg h2]
        have hk : offset - count = (offset - (count + 1)) + 1 := by omega
        rw [hm, hk, List.take_succ_cons, List.drop_succ_cons,
          ih (count + 1) hashes]

/-- C6 amended: in the unsorted path the offset/limit wrapper runs BEFORE the
distinct wrapper — iteration stops after `limit + offset` raw filter-passing
matches, the offset skips raw matches (which are not even hashed), and the
distinct filter de-duplicates only the raw matches inside the
`[offset, offset+limit)` window. -/
theorem c6_unsorted_pipeline_amended {Ω : Type} (hash : Ω → Nat)
    (offset limit : Nat) (raw : List Ω) :
    executeUnsortedDistinct hash offset limit raw =
      dedupByHash hash [] ((raw.take (limit + offset)).drop offset) := by
  rw [executeUnsortedDistinct, executeUnsortedGo_eq]
  simp

/-! ### C2 -/

/-- C2 counterexample: the ranges `[1,5]` and `[3,8]` of the same collection
intersect (both match oid 4) but neither contains the other, so
`is_overlapping` is false, no seen-ids set is allocated, and the object with
oid 4 is yielded TWICE by query execution — the claim's "yielded exactly
once … across any two intersecting clauses" fails. -/
theorem c2_intersecting_clauses_yield_twice :
    idMatches ⟨0, 1, 5, .ascending⟩ 4 = true ∧
    idMatches ⟨0, 3, 8, .ascending⟩ 4 = true ∧
    isOverlapping ⟨0, 1, 5, .ascending⟩ ⟨0, 3, 8, .ascending⟩ = false ∧
    ((executeRaw
        [(⟨0, 1⟩, 1), (⟨0, 2⟩, 2), (⟨0, 3⟩, 3), (⟨0, 4⟩, 4), (⟨0, 5⟩, 5),
          (⟨0, 6⟩, 6), (⟨0, 7⟩, 7), (⟨0, 8⟩, 8)]
        [⟨0, 1, 5, .ascending⟩, ⟨0, 3, 8, .ascending⟩]
        (fun _ => .ok true)).toOption.map
          (fun l => l.count ((4 : Int), (4 : Int))))
      = some 2 := by
  decide

theorem wcIter_pure_true {Ω : Type} (g : Ω → Bool) :
    ∀ (rows : List (Int × Ω)) (seen : List Int),
      (rows.map Prod.fst).Nodup →
      ∃ s' out, wcIter (fun o => .ok (g o)) true seen rows = .ok (s', out) ∧
        (∀ a, a ∈ s' ↔ (a ∈ seen ∨ a ∈ rows.map Prod.fst)) ∧
        (∀ p : Int × Ω, p ∈ out ↔ (p ∈ rows ∧ p.1 ∉ seen ∧ g p.2 = true)) ∧
        (out.map Prod.fst).Nodup ∧
        (∀ a ∈ out.map Prod.fst, a ∉ seen) := by
  intro rows
  induction rows with
  | nil =>
    intro seen _
    exact ⟨seen, [], rfl, by simp, by simp, by simp, by simp⟩
  | cons row rows ih =>
    obtain ⟨id, o⟩ := row
    intro seen hnodup
    rw [List.map_cons, List.nodup_cons] at hnodup
    obtain ⟨hid, hnd⟩ := hnodup
    by_cases hmem : id ∈ seen
    · obtain ⟨s', out, heq, hs, hout, hnodup', hdisj⟩ := ih seen hnd
      refine ⟨s', out, ?_, ?_, ?_, hnodup', hdisj⟩
      · simp only [wcIter]
        rw [if_pos ⟨trivial, hmem⟩]
        exact heq
      · intro a
        rw [hs]
        constructor
        · rintro (h | h)
          · exact Or.inl h
          · exact Or.inr (by simp [h])
        · rintro (h | h)
          · exact Or.inl h
          · rcases (by simpa using h : a = id ∨ a ∈ rows.map Prod.fst) with h2 | h2
            · exact Or.inl (h2 ▸ hmem)
            · exact Or.inr h2
      · intro p
        rw [hout]
        constructor
        · rintro ⟨h1, h2, h3⟩
          exact ⟨List.mem_cons_of_mem _ h1, h2, h3⟩
        · rintro ⟨h1, h2, h3⟩
          rcases List.mem_cons.mp h1 with h4 | h4
          · exact absurd (by rw [h4] at h2 ⊢; exact hmem) h2
          · exact ⟨h4, h2, h3⟩
    · obtain ⟨s', out, heq, hs, hout, hnodup', hdisj⟩ := ih (id :: seen) hnd
      refine ⟨s', if g o then (id, o) :: out else out, ?_, ?_, ?_, ?_, ?_⟩
      · simp only [wcIter]
        rw [if_neg (by simp [hmem]), if_pos trivial, heq]
        rfl
      · intro a
        rw [hs]
        constructor
        · rintro (h | h)
          · rcases (by simpa using h : a = id ∨ a ∈ seen) with h2 | h2
            · exact Or.inr (by simp [h2])
            · exact Or.inl h2
          · exact Or.inr (by simp [h])
        · rintro (h | h)
          · exact Or.inl (by simp [h])
          · rcases (by simpa using h : a = id ∨ a ∈ rows.map Prod.fst) with h2 | h2
            · exact Or.inl (by simp [h2])
            · exact Or.inr h2
      · intro p
        by_cases hg : g o = true
        · rw [if_pos hg]
          constructor
          · intro h
            rcases List.mem_cons.mp h with h2 | h2
            · exact ⟨by simp [h2], by rw [h2]; exact hmem, by rw [h2]; exact hg⟩
            · obtain ⟨h3, h4, h5⟩ := (hout p).mp h2
              exact ⟨List.mem_cons_of_mem _ h3, fun hc => h4 (by simp [hc]), h5⟩
          · rintro ⟨h1, h2, h3⟩
            rcases List.mem_cons.mp h1 with h4 | h4
            · exact h4 ▸ List.mem_cons_self _ _
            · refine List.mem_cons_of_mem _ ((hout p).mpr ⟨h4, ?_, h3⟩)
              intro hc
              rcases (by simpa using hc : p.1 = id ∨ p.1 ∈ seen) with h5 | h5
              · have hp : p.1 ∈ rows.map Prod.fst := List.mem_map_of_mem Prod.fst h4
                rw [h5] at hp
                exact hid hp
              · exact h2 h5
        · rw [if_neg hg]
          rw [hout p]
          constructor
          · rintro ⟨h1, h2, h3⟩
            exact ⟨List.mem_cons_of_mem _ h1, fun hc => h2 (by simp [hc]), h3⟩
          · rintro ⟨h1, h2, h3⟩
            rcases List.mem_cons.mp h1 with h4 | h4
            · exact absurd (by rw [h4] at h3; exact h3) hg
            · refine ⟨h4, ?_, h3⟩
              intro hc
              rcases (by simpa using hc : p.1 = id ∨ p.1 ∈ seen) with h5 | h5
              · have hp : p.1 ∈ rows.map Prod.fst := List.mem_map_of_mem Prod.fst h4
                rw [h5] at hp
                exact hid hp
              · exact h2 h5
      · by_cases hg : g o = true
        · rw [if_pos hg, List.map_cons, List.nodup_cons]
          refine ⟨?_, hnodup'⟩
          intro hc
          exact hdisj id hc (by simp)
        · rw [if_neg hg]
          exact hnodup'
      · intro a ha
        by_cases hg : g o = true
        · rw [if_pos hg] at ha
          rcases (by simpa using ha : a = id ∨ a ∈ out.map Prod.fst) with h2 | h2
          · exact h2 ▸ hmem
          · exact fun hc => hdisj a h2 (by simp [hc])
        · rw [if_neg hg] at ha
          exact fun hc => hdisj a ha (by simp [hc])

theorem rangeRows_mem {Ω : Type} (db : List (IntKey × Ω)) (wc : IdWhereClause)
    (c : Nat) (hpfx : wc.pfx = c) (id : Int) (o : Ω) :
    (id, o) ∈ rangeRows db wc ↔
      ((⟨c, id⟩, o) ∈ db ∧ idMatches wc id = true) := by
  have base : ∀ p : Int × Ω,
      p ∈ (db.filter (fun r => r.1.colId = wc.pfx ∧ idMatches wc r.1.oid)).map
        (fun r => (r.1.oid, r.2)) ↔
      ((⟨c, p.1⟩, p.2) ∈ db ∧ idMatches wc p.1 = true) := by
    intro p
    rw [List.mem_map]
    constructor
    · rintro ⟨⟨⟨rc, ro⟩, robj⟩, hr, heq⟩
      rw [List.mem_filter] at hr
      obtain ⟨hdb, hcond⟩ := hr
      simp only [decide_eq_true_eq] at hcond
      obtain ⟨hc1, hc2⟩ := hcond
      simp only at heq
      obtain ⟨h1, h2⟩ := Prod.mk.injEq .. ▸ heq
      subst h1
      subst h2
      rw [hc1, hpfx] at hdb
      exact ⟨hdb, hc2⟩
    · rintro ⟨hdb, hm⟩
      refine ⟨(⟨c, p.1⟩, p.2), List.mem_filter.mpr ⟨hdb, ?_⟩, rfl⟩
      simp [hpfx, hm]
  rcases hs : wc.sort with _ | _ <;>
    simp only [rangeRows, hs, List.mem_reverse] <;>
    exact base (id, o)

theorem rangeRows_ids {Ω : Type} (db : List (IntKey × Ω)) (wc : IdWhereClause)
    (c : Nat) (hpfx : wc.pfx = c) (a : Int) :
    a ∈ (rangeRows db wc).map Prod.fst ↔
      (∃ o, (⟨c, a⟩, o) ∈ db ∧ idMatches wc a = true) := by
  rw [List.mem_map]
  constructor
  · rintro ⟨⟨id, o⟩, hmem, heq⟩
    simp only at heq
    subst heq
    obtain ⟨hdb, hm⟩ := (rangeRows_mem db wc c hpfx _ o).mp hmem
    exact ⟨o, hdb, hm⟩
  · rintro ⟨o, hdb, hm⟩
    exact ⟨(a, o), (rangeRows_mem db wc c hpfx a o).mpr ⟨hdb, hm⟩, rfl⟩

theorem rangeRows_ids_nodup {Ω : Type} (db : List (IntKey × Ω))
    (wc : IdWhereClause) (c : Nat) (hpfx : wc.pfx = c)
    (hnodup : ((db.filter (fun r => r.1.colId = c)).map
      (fun r => r.1.oid)).Nodup) :
    ((rangeRows db wc).map Prod.fst).Nodup := by
  have hsub : List.Sublist
      (db.filter (fun r => decide (r.1.colId = wc.pfx ∧ idMatches wc r.1.oid)))
      (db.filter (fun r => decide (r.1.colId = c))) := by
    apply List.monotone_filter_right
    intro r hr
    simp only [decide_eq_true_eq] at hr ⊢
    rw [← hpfx]
    exact hr.1
  have hbase : ((db.filter
      (fun r => decide (r.1.colId = wc.pfx ∧ idMatches wc r.1.oid))).map
        (fun r => r.1.oid)).Nodup :=
    List.Nodup.sublist (List.Sublist.map _ hsub) hnodup
  have hmapeq : ∀ l : List (IntKey × Ω),
      (l.map (fun r => (r.1.oid, r.2))).map Prod.fst = l.map (fun r => r.1.oid) := by
    intro l
    rw [List.map_map]
    rfl
  rcases hs : wc.sort with _ | _ <;>
    simp only [rangeRows, hs]
  · rw [hmapeq]
    exact hbase
  · rw [List.map_reverse, List.nodup_reverse, hmapeq]
    exact hbase

theorem execRawGo_pure {Ω : Type} (g : Ω → Bool) (c : Nat)
    (db : List (IntKey × Ω))
    (hnodup : ((db.filter (fun r => r.1.colId = c)).map
      (fun r => r.1.oid)).Nodup) :
    ∀ (wcs : List IdWhereClause) (seen : List Int),
      (∀ wc ∈ wcs, wc.pfx = c) →
      ∃ s' out, execRawGo db (fun o => .ok (g o)) true seen wcs = .ok (s', out) ∧
        (∀ a, a ∈ s' ↔ (a ∈ seen ∨
          ∃ wc ∈ wcs, ∃ o, (⟨c, a⟩, o) ∈ db ∧ idMatches wc a = true)) ∧
        (∀ p : Int × Ω, p ∈ out ↔
          ((⟨c, p.1⟩, p.2) ∈ db ∧ (∃ wc ∈ wcs, idMatches wc p.1 = true) ∧
            p.1 ∉ seen ∧ g p.2 = true)) ∧
        (out.map Prod.fst).Nodup ∧
        (∀ a ∈ out.map Prod.fst, a ∉ seen) := by
  intro wcs
  induction wcs with
  | nil =>
    intro seen _
    exact ⟨seen, [], rfl, by simp, by simp, by simp, by simp⟩
  | cons wc wcs ih =>
    intro seen hpfx
    have hwc : wc.pfx = c := hpfx wc (by simp)
    obtain ⟨s1, out1, heq1, hs1, hout1, hnd1, hdisj1⟩ :=
      wcIter_pure_true g (rangeRows db wc) seen
        (rangeRows_ids_nodup db wc c hwc hnodup)
    obtain ⟨s2, out2, heq2, hs2, hout2, hnd2, hdisj2⟩ :=
      ih s1 (fun w hw => hpfx w (List.mem_cons_of_mem _ hw))
    refine ⟨s2, out1 ++ out2, ?_, ?_, ?_, ?_, ?_⟩
    · simp only [execRawGo, heq1, Except.bind, heq2, Except.map]
    · intro a
      rw [hs2 a]
      constructor
      · rintro (h | h)
        · rcases (hs1 a).mp h with h2 | h2
          · exact Or.inl h2
          · obtain ⟨o, hdb, hm⟩ := (rangeRows_ids db wc c hwc a).mp h2
            exact Or.inr ⟨wc, by simp, o, hdb, hm⟩
        · obtain ⟨w, hw, o, hdb, hm⟩ := h
          exact Or.inr ⟨w, List.mem_cons_of_mem _ hw, o, hdb, hm⟩
      · rintro (h | h)
        · exact Or.inl ((hs1 a).mpr (Or.inl h))
        · obtain ⟨w, hw, o, hdb, hm⟩ := h
          rcases List.mem_cons.mp hw with h2 | h2
          · refine Or.inl ((hs1 a).mpr (Or.inr ?_))
            rw [rangeRows_ids db wc c hwc a]
            exact ⟨o, hdb, h2 ▸ hm⟩
          · exact Or.inr ⟨w, h2, o, hdb, hm⟩
    · intro p
      rw [List.mem_append, hout1 p, hout2 p,
        rangeRows_mem db wc c hwc p.1 p.2]
      constructor
      · rintro (⟨⟨hdb, hm⟩, hseen, hg⟩ | ⟨hdb, ⟨w, hw, hm⟩, hseen, hg⟩)
        · exact ⟨hdb, ⟨wc, by simp, hm⟩, hseen, hg⟩
        · refine ⟨hdb, ⟨w, List.mem_cons_of_mem _ hw, hm⟩, ?_, hg⟩
          intro hc
          exact hseen ((hs1 p.1).mpr (Or.inl hc))
      · rintro ⟨hdb, ⟨w, hw, hm⟩, hseen, hg⟩
        by_cases hmw : idMatches wc p.1 = true
        · exact Or.inl ⟨⟨hdb, hmw⟩, hseen, hg⟩
        · rcases List.mem_cons.mp hw with h2 | h2
          · exact absurd (h2 ▸ hm) hmw
          · refine Or.inr ⟨hdb, ⟨w, h2, hm⟩, ?_, hg⟩
            intro hc
            rcases (hs1 p.1).mp hc with h3 | h3
            · exact hseen h3
            · obtain ⟨o, _, hm2⟩ := (rangeRows_ids db wc c hwc p.1).mp h3
              exact hmw hm2
    · rw [List.map_append]
      refine List.Nodup.append hnd1 hnd2 ?_
      intro a ha1 ha2
      have h1 : a ∈ (rangeRows db wc).map Prod.fst := by
        obtain ⟨p, hp, hpa⟩ := List.mem_map.mp ha1
        obtain ⟨hrow, _, _⟩ := (hout1 p).mp hp
        exact hpa ▸ List.mem_map_of_mem Prod.fst hrow
      exact hdisj2 a ha2 ((hs1 a).mpr (Or.inr h1))
    · intro a ha
      rw [List.map_append, List.mem_append] at ha
      rcases ha with h | h
      · exact hdisj1 a h
      · intro hc
        exact hdisj2 a h ((hs1 a).mpr (Or.inl hc))

/-- C2 amended: de-duplication is driven by the containment-based overlap
test, not by intersection. Whenever the query's clauses DO trigger
`check_where_clauses_overlapping` — some pair of same-collection clauses
whose ranges contain one another — the shared seen-ids set is allocated and
execution yields each object at most once, and exactly the objects that lie
in at least one clause's range and pass the filter. (The counterexample shows
that merely intersecting clauses do not trigger the test and yield objects in
the intersection once per clause.) -/
theorem c2_containment_dedup_amended {Ω : Type} (c : Nat)
    (db : List (IntKey × Ω)) (wcs : List IdWhereClause) (g : Ω → Bool)
    (hpfx : ∀ wc ∈ wcs, wc.pfx = c)
    (hnodup : ((db.filter (fun r => r.1.colId = c)).map
      (fun r => r.1.oid)).Nodup)
    (hov : checkWhereClausesOverlapping wcs = true) :
    ∃ out, executeRaw db wcs (fun o => .ok (g o)) = .ok out ∧
      (out.map Prod.fst).Nodup ∧
      ∀ id o, ((id, o) ∈ out ↔
        ((⟨c, id⟩, o) ∈ db ∧ (∃ wc ∈ wcs, idMatches wc id = true) ∧
          g o = true)) := by
  obtain ⟨s', out, heq, _, hout, hnd, _⟩ := execRawGo_pure g c db hnodup wcs [] hpfx
  refine ⟨out, ?_, hnd, ?_⟩
  · simp only [executeRaw, hov, heq, Except.map]
  · intro id o
    rw [hout (id, o)]
    simp

/-- C2 amended witness: clause `[2,2]` is contained in clause `[1,3]`, the
overlap test triggers, and the three-row db is yielded without duplicates,
exactly the rows in range. -/
theorem c2_containment_dedup_amended_witness :
    ∃ out, executeRaw ([(⟨0, 1⟩, 1), (⟨0, 2⟩, 2), (⟨0, 3⟩, 3)] :
          List (IntKey × Int))
        [⟨0, 1, 3, .ascending⟩, ⟨0, 2, 2, .ascending⟩]
        (fun _ => .ok true) = .ok out ∧
      (out.map Prod.fst).Nodup ∧
      ∀ (id o : Int), ((id, o) ∈ out ↔
        (((⟨0, id⟩ : IntKey), o)
            ∈ ([(⟨0, 1⟩, 1), (⟨0, 2⟩, 2), (⟨0, 3⟩, 3)] : List (IntKey × Int)) ∧
          (∃ wc ∈ [⟨0, 1, 3, SortDir.ascending⟩, ⟨0, 2, 2, .ascending⟩],
            idMatches wc id = true) ∧ true = true)) :=
  c2_containment_dedup_amended 0
    [(⟨0, 1⟩, (1 : Int)), (⟨0, 2⟩, 2), (⟨0, 3⟩, 3)]
    [⟨0, 1, 3, .ascending⟩, ⟨0, 2, 2, .ascending⟩] (fun _ => true)
    (by decide) (by decide) (by decide)

/-! ### C7 -/

theorem suffClosed_of_all (changed ws : List Nat) (h : ∀ u ∈ ws, u ∈ changed) :
    suffClosed changed ws := by
  induction ws with
  | nil => trivial
  | cons w ws ih =>
    exact ⟨fun _ u hu => h u (List.mem_cons_of_mem _ hu),
      ih (fun u hu => h u (List.mem_cons_of_mem _ hu))⟩

theorem suffClosed_empty (ws : List Nat) : suffClosed [] ws := by
  induction ws with
  | nil => trivial
  | cons w ws ih => exact ⟨fun h => absurd h (List.not_mem_nil w), ih⟩

theorem suffClosed_preserve (changed changed' ws : List Nat)
    (hsc : suffClosed changed ws)
    (hsub : ∀ a ∈ changed, a ∈ changed')
    (hnew : ∀ a ∈ changed', a ∈ changed ∨ a ∉ ws) : suffClosed changed' ws := by
  induction ws with
  | nil => trivial
  | cons w ws ih =>
    obtain ⟨h1, h2⟩ := hsc
    refine ⟨?_, ih h2 (fun a ha => (hnew a ha).imp_right
      (fun h hc => h (List.mem_cons_of_mem _ hc)))⟩
    intro hw u hu
    rcases hnew w hw with h3 | h3
    · exact hsub u (h1 h3 u hu)
    · exact absurd (List.mem_cons_self w ws) h3

theorem insertAllWatchers_mono :
    ∀ (ws changed : List Nat) (a : Nat), a ∈ changed →
      a ∈ insertAllWatchers changed ws := by
  intro ws
  induction ws with
  | nil => intro changed a h; exact h
  | cons w ws ih =>
    intro changed a h
    simp only [insertAllWatchers]
    by_cases hw : w ∈ changed
    · rw [if_pos hw]; exact h
    · rw [if_neg hw]; exact ih _ a (List.mem_append_left _ h)

theorem insertAllWatchers_dest :
    ∀ (ws changed : List Nat) (a : Nat), a ∈ insertAllWatchers changed ws →
      a ∈ changed ∨ a ∈ ws := by
  intro ws
  induction ws with
  | nil => intro changed a h; exact Or.inl h
  | cons w ws ih =>
    intro changed a h
    simp only [insertAllWatchers] at h
    by_cases hw : w ∈ changed
    · rw [if_pos hw] at h; exact Or.inl h
    · rw [if_neg hw] at h
      rcases ih _ a h with h2 | h2
      · rcases List.mem_append.mp h2 with h3 | h3
        · exact Or.inl h3
        · exact Or.inr (by simpa using Or.inl (by simpa using h3))
      · exact Or.inr (List.mem_cons_of_mem _ h2)

theorem insertAllWatchers_complete :
    ∀ (ws changed : List Nat), suffClosed changed ws → ws.Nodup →
      ∀ w ∈ ws, w ∈ insertAllWatchers changed ws := by
  intro ws
  induction ws with
  | nil => intro changed _ _ w hw; exact absurd hw (List.not_mem_nil w)
  | cons w ws ih =>
    intro changed hsc hnodup u hu
    obtain ⟨h1, h2⟩ := hsc
    rw [List.nodup_cons] at hnodup
    obtain ⟨hw1, hw2⟩ := hnodup
    simp only [insertAllWatchers]
    by_cases hw : w ∈ changed
    · rw [if_pos hw]
      rcases List.mem_cons.mp hu with h3 | h3
      · exact h3 ▸ hw
      · exact h1 hw u h3
    · rw [if_neg hw]
      rcases List.mem_cons.mp hu with h3 | h3
      · rw [h3]
        exact insertAllWatchers_mono ws _ w (List.mem_append_right _ (by simp))
      · refine ih _ ?_ hw2 u h3
        refine suffClosed_preserve changed _ ws h2
          (fun a ha => List.mem_append_left _ ha) ?_
        intro a ha
        rcases List.mem_append.mp ha with h4 | h4
        · exact Or.inl h4
        · right
          rw [show a = w from by simpa using h4]
          exact hw1

theorem insertAllWatchers_nodup :
    ∀ (ws changed : List Nat), changed.Nodup →
      (insertAllWatchers changed ws).Nodup := by
  intro ws
  induction ws with
  | nil => intro changed h; exact h
  | cons w ws ih =>
    intro changed h
    simp only [insertAllWatchers]
    by_cases hw : w ∈ changed
    · rw [if_pos hw]; exact h
    · rw [if_neg hw]
      refine ih _ ?_
      rw [List.nodup_append]
      exact ⟨h, List.nodup_singleton w, by simp [hw]⟩

theorem insertQueryWatchers_mono {Ω : Type} (oid : IntKey) (obj : Ω) :
    ∀ (qws : List ((IntKey → Ω → Bool) × Nat)) (changed : List Nat) (a : Nat),
      a ∈ changed → a ∈ insertQueryWatchers oid obj changed qws := by
  intro qws
  induction qws with
  | nil => intro changed a h; exact h
  | cons qw qws ih =>
    intro changed a h
    simp only [insertQueryWatchers]
    refine ih _ a ?_
    split
    · exact List.mem_append_left _ h
    · exact h

theorem insertQueryWatchers_dest {Ω : Type} (oid : IntKey) (obj : Ω) :
    ∀ (qws : List ((IntKey → Ω → Bool) × Nat)) (changed : List Nat) (a : Nat),
      a ∈ insertQueryWatchers oid obj changed qws →
      a ∈ changed ∨ ∃ qw ∈ qws, a = qw.2 := by
  intro qws
  induction qws with
  | nil => intro changed a h; exact Or.inl h
  | cons qw qws ih =>
    intro changed a h
    simp only [insertQueryWatchers] at h
    rcases ih _ a h with h2 | h2
    · by_cases hcond : qw.2 ∉ changed ∧ qw.1 oid obj
      · rw [if_pos hcond] at h2
        rcases List.mem_append.mp h2 with h3 | h3
        · exact Or.inl h3
        · exact Or.inr ⟨qw, by simp, by simpa using h3⟩
      · rw [if_neg hcond] at h2
        exact Or.inl h2
    · obtain ⟨q, hq, hq2⟩ := h2
      exact Or.inr ⟨q, List.mem_cons_of_mem _ hq, hq2⟩

theorem insertQueryWatchers_nodup {Ω : Type} (oid : IntKey) (obj : Ω) :
    ∀ (qws : List ((IntKey → Ω → Bool) × Nat)) (changed : List Nat),
      changed.Nodup → (insertQueryWatchers oid obj changed qws).Nodup := by
  intro qws
  induction qws with
  | nil => intro changed h; exact h
  | cons qw qws ih =>
    intro changed h
    simp only [insertQueryWatchers]
    refine ih _ ?_
    by_cases hcond : qw.2 ∉ changed ∧ qw.1 oid obj
    · rw [if_pos hcond]
      rw [List.nodup_append]
      exact ⟨h, List.nodup_singleton _, by simp [hcond.1]⟩
    · rw [if_neg hcond]
      exact h

theorem getColWatchers_cases {Ω : Type} (reg : List (Nat × ColWatchers Ω))
    (c : Nat) :
    getColWatchers reg c = ⟨[], [], []⟩ ∨
      ∃ e ∈ reg, e.1 = c ∧ getColWatchers reg c = e.2 := by
  rw [getColWatchers, lookupKV]
  cases hfind : reg.find? (fun r => r.1 = c) with
  | none => exact Or.inl rfl
  | some e =>
    refine Or.inr ⟨e, List.mem_of_find?_eq_some hfind, ?_, rfl⟩
    have := List.find?_some hfind
    simpa using this

theorem registerChange_step {Ω : Type} (reg : List (Nat × ColWatchers Ω))
    (H1 : ∀ e ∈ reg, e.2.watchers.Nodup)
    (H2 : ∀ e ∈ reg, ∀ e2 ∈ reg, e.1 ≠ e2.1 →
      ∀ w ∈ e.2.watchers, w ∉ e2.2.watchers)
    (H3 : ∀ e ∈ reg, ∀ ow ∈ e.2.objectWatchers, ∀ w ∈ ow.2,
      ∀ e2 ∈ reg, w ∉ e2.2.watchers)
    (H4 : ∀ e ∈ reg, ∀ qw ∈ e.2.queryWatchers, ∀ e2 ∈ reg,
      qw.2 ∉ e2.2.watchers)
    (changed : List Nat) (oid : IntKey) (obj : Ω)
    (hnd : changed.Nodup)
    (hsc : ∀ c, suffClosed changed (getColWatchers reg c).watchers) :
    (registerChange reg changed oid obj).Nodup ∧
    (∀ c, suffClosed (registerChange reg changed oid obj)
      (getColWatchers reg c).watchers) ∧
    (∀ a ∈ changed, a ∈ registerChange reg changed oid obj) ∧
    (∀ w ∈ (getColWatchers reg oid.colId).watchers,
      w ∈ registerChange reg changed oid obj) := by
  have D1 : ∀ c, (getColWatchers reg c).watchers.Nodup := by
    intro c
    rcases getColWatchers_cases reg c with h | ⟨e, he, _, h⟩
    · rw [h]; exact List.nodup_nil
    · rw [h]; exact H1 e he
  have D2 : ∀ c c', c ≠ c' → ∀ w ∈ (getColWatchers reg c).watchers,
      w ∉ (getColWatchers reg c').watchers := by
    intro c c' hne w hw
    rcases getColWatchers_cases reg c with h | ⟨e, he, hec, h⟩
    · rw [h] at hw; exact absurd hw (List.not_mem_nil w)
    · rcases getColWatchers_cases reg c' with h' | ⟨e2, he2, hec2, h'⟩
      · rw [h']; exact List.not_mem_nil w
      · rw [h'] ; rw [h] at hw
        exact H2 e he e2 he2 (by rw [hec, hec2]; exact hne) w hw
  have D3 : ∀ c c', ∀ w ∈ (lookupKV (getColWatchers reg c).objectWatchers
      oid.oid).getD [], w ∉ (getColWatchers reg c').watchers := by
    intro c c' w hw
    rcases getColWatchers_cases reg c with h | ⟨e, he, _, h⟩
    · rw [h] at hw
      exact absurd hw (List.not_mem_nil w)
    · rw [h] at hw
      rcases hfind : (e.2.objectWatchers).find? (fun r => r.1 = oid.oid) with
        _ | ow
      · rw [lookupKV, hfind] at hw
        exact absurd hw (List.not_mem_nil w)
      · rw [lookupKV, hfind] at hw
        have how : ow ∈ e.2.objectWatchers := List.mem_of_find?_eq_some hfind
        rcases getColWatchers_cases reg c' with h' | ⟨e2, he2, _, h'⟩
        · rw [h']; exact List.not_mem_nil w
        · rw [h']
          exact H3 e he ow how w hw e2 he2
  have D4 : ∀ c c', ∀ qw ∈ (getColWatchers reg c).queryWatchers,
      qw.2 ∉ (getColWatchers reg c').watchers := by
    intro c c' qw hqw
    rcases getColWatchers_cases reg c with h | ⟨e, he, _, h⟩
    · rw [h] at hqw; exact absurd hqw (List.not_mem_nil qw)
    · rw [h] at hqw
      rcases getColWatchers_cases reg c' with h' | ⟨e2, he2, _, h'⟩
      · rw [h']; exact List.not_mem_nil qw.2
      · rw [h']
        exact H4 e he qw hqw e2 he2
  rw [registerChange]
  set W := (getColWatchers reg oid.colId).watchers with hW
  set OW := (lookupKV (getColWatchers reg oid.colId).objectWatchers
    oid.oid).getD [] with hOW
  set QW := (getColWatchers reg oid.colId).queryWatchers with hQW
  set c1 := insertAllWatchers changed W with hc1
  set c2 := insertAllWatchers c1 OW with hc2
  have hnd1 : c1.Nodup := insertAllWatchers_nodup W changed hnd
  have hnd2 : c2.Nodup := insertAllWatchers_nodup OW c1 hnd1
  have hnd3 : (insertQueryWatchers oid obj c2 QW).Nodup :=
    insertQueryWatchers_nodup oid obj QW c2 hnd2
  have hmono1 : ∀ a ∈ changed, a ∈ c1 := fun a h =>
    insertAllWatchers_mono W changed a h
  have hmono2 : ∀ a ∈ c1, a ∈ c2 := fun a h =>
    insertAllWatchers_mono OW c1 a h
  have hmono3 : ∀ a ∈ c2, a ∈ insertQueryWatchers oid obj c2 QW := fun a h =>
    insertQueryWatchers_mono oid obj QW c2 a h
  have hWc1 : ∀ w ∈ W, w ∈ c1 :=
    insertAllWatchers_complete W changed (hsc oid.colId) (D1 oid.colId)
  have hsc1 : ∀ c, suffClosed c1 (getColWatchers reg c).watchers := by
    intro c
    by_cases hcc : c = oid.colId
    · subst hcc
      exact suffClosed_of_all c1 _ hWc1
    · refine suffClosed_preserve changed c1 _ (hsc c) hmono1 ?_
      intro a ha
      rcases insertAllWatchers_dest W changed a ha with h | h
      · exact Or.inl h
      · exact Or.inr (D2 oid.colId c (fun hcc2 => hcc hcc2.symm) a h)
  have hsc2 : ∀ c, suffClosed c2 (getColWatchers reg c).watchers := by
    intro c
    refine suffClosed_preserve c1 c2 _ (hsc1 c) hmono2 ?_
    intro a ha
    rcases insertAllWatchers_dest OW c1 a ha with h | h
    · exact Or.inl h
    · exact Or.inr (D3 oid.colId c a h)
  have hsc3 : ∀ c, suffClosed (insertQueryWatchers oid obj c2 QW)
      (getColWatchers reg c).watchers := by
    intro c
    refine suffClosed_preserve c2 _ _ (hsc2 c) hmono3 ?_
    intro a ha
    rcases insertQueryWatchers_dest oid obj QW c2 a ha with h | h
    · exact Or.inl h
    · obtain ⟨qw, hqw, hqa⟩ := h
      exact Or.inr (hqa ▸ D4 oid.colId c qw hqw)
  refine ⟨hnd3, hsc3, ?_, ?_⟩
  · intro a ha
    exact hmono3 a (hmono2 a (hmono1 a ha))
  · intro w hw
    exact hmono3 w (hmono2 w (hWc1 w hw))

theorem registerChanges_go {Ω : Type} (reg : List (Nat × ColWatchers Ω))
    (H1 : ∀ e ∈ reg, e.2.watchers.Nodup)
    (H2 : ∀ e ∈ reg, ∀ e2 ∈ reg, e.1 ≠ e2.1 →
      ∀ w ∈ e.2.watchers, w ∉ e2.2.watchers)
    (H3 : ∀ e ∈ reg, ∀ ow ∈ e.2.objectWatchers, ∀ w ∈ ow.2,
      ∀ e2 ∈ reg, w ∉ e2.2.watchers)
    (H4 : ∀ e ∈ reg, ∀ qw ∈ e.2.queryWatchers, ∀ e2 ∈ reg,
      qw.2 ∉ e2.2.watchers) :
    ∀ (changes : List (IntKey × Ω)) (changed : List Nat),
      changed.Nodup →
      (∀ c, suffClosed changed (getColWatchers reg c).watchers) →
      ((changes.foldl (fun ch c => registerChange reg ch c.1 c.2)
          changed).Nodup ∧
        (∀ a ∈ changed, a ∈ changes.foldl
          (fun ch c => registerChange reg ch c.1 c.2) changed) ∧
        (∀ ch ∈ changes, ∀ w ∈ (getColWatchers reg ch.1.colId).watchers,
          w ∈ changes.foldl (fun ch c => registerChange reg ch c.1 c.2)
            changed)) := by
  intro changes
  induction changes with
  | nil =>
    intro changed hnd _
    exact ⟨hnd, fun a h => h, fun ch hch => absurd hch (List.not_mem_nil ch)⟩
  | cons ch changes ih =>
    intro changed hnd hsc
    obtain ⟨snd, ssc, smono, scompl⟩ :=
      registerChange_step reg H1 H2 H3 H4 changed ch.1 ch.2 hnd hsc
    obtain ⟨fnd, fmono, fcompl⟩ :=
      ih (registerChange reg changed ch.1 ch.2) snd ssc
    rw [List.foldl_cons]
    refine ⟨fnd, ?_, ?_⟩
    · intro a ha
      exact fmono a (smono a ha)
    · intro ch2 hch2 w hw
      rcases List.mem_cons.mp hch2 with h | h
      · exact fmono w (scompl w (by rw [h] at hw; exact hw))
      · exact fcompl ch2 h w hw

/-- C7: within one write transaction, after any sequence of
`register_change` calls, every collection watcher registered on a changed
collection is in the changed-watchers set (it fires), and `notify_watchers`
invokes each distinct watcher's callback exactly once — the notification
list is duplicate-free — no matter how many changes matched a watcher.
Hypotheses: watcher ids are assigned uniquely across the registry (each
entry's collection-watcher list is duplicate-free, collection-watcher lists
of distinct collections are disjoint, and object- and query-watcher ids
never collide with collection-watcher ids). -/
theorem c7_collection_watchers_fire_once {Ω : Type}
    (reg : List (Nat × ColWatchers Ω)) (changes : List (IntKey × Ω))
    (H1 : ∀ e ∈ reg, e.2.watchers.Nodup)
    (H2 : ∀ e ∈ reg, ∀ e2 ∈ reg, e.1 ≠ e2.1 →
      ∀ w ∈ e.2.watchers, w ∉ e2.2.watchers)
    (H3 : ∀ e ∈ reg, ∀ ow ∈ e.2.objectWatchers, ∀ w ∈ ow.2,
      ∀ e2 ∈ reg, w ∉ e2.2.watchers)
    (H4 : ∀ e ∈ reg, ∀ qw ∈ e.2.queryWatchers, ∀ e2 ∈ reg,
      qw.2 ∉ e2.2.watchers) :
    (∀ ch ∈ changes, ∀ w ∈ (getColWatchers reg ch.1.colId).watchers,
      w ∈ registerChanges reg changes) ∧
    (notifyWatchers (registerChanges reg changes)).Nodup := by
  obtain ⟨hnd, _, hcompl⟩ := registerChanges_go reg H1 H2 H3 H4 changes []
    List.nodup_nil (fun c => suffClosed_empty _)
  exact ⟨hcompl, hnd⟩

/-- C7 witness: a registry with two collections (watchers 1,2 on collection
0 and 6 on collection 1, an object watcher 3, a query watcher 4), and two
changes on collection 0 — both collection watchers of the changed collection
are notified, each exactly once. -/
theorem c7_collection_watchers_fire_once_witness :
    (1 ∈ registerChanges
      [(0, ⟨[1, 2], [((5 : Int), [3])], [(fun _ o => o = 7, 4)]⟩),
        (1, ⟨[6], [], []⟩)]
      [((⟨0, 5⟩ : IntKey), (7 : Nat)), (⟨0, 5⟩, 8)]) ∧
    (notifyWatchers (registerChanges
      [(0, ⟨[1, 2], [((5 : Int), [3])], [(fun _ o => o = 7, 4)]⟩),
        (1, ⟨[6], [], []⟩)]
      [((⟨0, 5⟩ : IntKey), (7 : Nat)), (⟨0, 5⟩, 8)])).Nodup := by
  have h := c7_collection_watchers_fire_once
    [(0, ⟨[1, 2], [((5 : Int), [3])], [(fun _ o => o = 7, 4)]⟩),
      (1, ⟨[6], [], []⟩)]
    [((⟨0, 5⟩ : IntKey), (7 : Nat)), (⟨0, 5⟩, 8)]
    (by decide) (by decide) (by decide) (by decide)
  exact ⟨h.1 (⟨0, 5⟩, 7) (by simp) 1 (by decide), h.2⟩

/-! ### C9 -/

theorem take_min_eq_iff {α : Type} (l1 l2 : List α) :
    (l1.take (min l1.length l2.length) = l2.take (min l1.length l2.length)) ↔
      (l2.take l1.length = l1 ∨ l1.take l2.length = l2) := by
  rcases le_total l1.length l2.length with h | h
  · rw [min_eq_left h, List.take_length]
    constructor
    · intro heq
      exact Or.inl heq.symm
    · rintro (heq | heq)
      · exact heq.symm
      · rw [← heq, List.take_take, min_eq_left h, List.take_length]
  · rw [min_eq_right h, List.take_length]
    constructor
    · intro heq
      exact Or.inr heq
    · rintro (heq | heq)
      · rw [← heq, List.take_take, min_eq_left h, List.take_length]
      · exact heq

theorem isDuplicateIndex_iff (i : IndexSchema) (propertyNames : List String) :
    isDuplicateIndex i propertyNames = true ↔
      (propertyNames.take i.propertyNames.length = i.propertyNames ∨
        i.propertyNames.take propertyNames.length = propertyNames) := by
  rw [isDuplicateIndex]
  simp only [decide_eq_true_eq]
  exact take_min_eq_iff i.propertyNames propertyNames

theorem resolveProps_isSome_iff (col : CollectionSchema) :
    ∀ names : List String, (resolveProps col names).isSome ↔
      ∀ n ∈ names, ∃ p ∈ col.properties, p.name = n := by
  intro names
  induction names with
  | nil => simp [resolveProps]
  | cons n names ih =>
    rcases hfind : col.properties.find? (fun p => p.name = n) with _ | p
    · have hno : ¬ ∃ p ∈ col.properties, p.name = n := by
        rintro ⟨p, hp, hpn⟩
        have := List.find?_eq_none.mp hfind p hp
        simp [hpn] at this
      simp only [resolveProps, hfind]
      constructor
      · intro h
        simp at h
      · intro h
        exact absurd (h n (by simp)) hno
    · have hyes : ∃ p2 ∈ col.properties, p2.name = n := by
        refine ⟨p, List.mem_of_find?_eq_some hfind, ?_⟩
        have := List.find?_some hfind
        simpa using this
      rcases hrest : resolveProps col names with _ | ps
      · simp only [resolveProps, hfind, hrest]
        rw [hrest] at ih
        constructor
        · intro h
          simp at h
        · intro h
          have : ∀ n2 ∈ names, ∃ p2 ∈ col.properties, p2.name = n2 :=
            fun n2 hn2 => h n2 (List.mem_cons_of_mem _ hn2)
          exact absurd (ih.mpr this) (by simp)
      · simp only [resolveProps, hfind, hrest]
        rw [hrest] at ih
        constructor
        · intro _ n2 hn2
          rcases List.mem_cons.mp hn2 with h2 | h2
          · exact h2 ▸ hyes
          · exact (ih.mp (by simp)) n2 h2
        · intro _
          simp

/-- C9: `add_index` succeeds if and only if the property list has between 1
and 3 names, no existing index is a prefix-duplicate (neither name list is a
prefix of the other), every named property resolves in the schema, no
resolved property has a dynamic type other than `String`, `hash_value` holds
only when a string property is among them, and — without `hash_value` —
strings appear only as the terminal property; every failure is an
illegal-argument error. -/
theorem c9_add_index_validation (col : CollectionSchema)
    (propertyNames : List String) (unique hashValue : Bool) :
    ((∃ col2, addIndex col propertyNames unique hashValue = .ok col2) ↔
      (propertyNames ≠ [] ∧ propertyNames.length ≤ 3 ∧
        (∀ i ∈ col.indexes,
          ¬(propertyNames.take i.propertyNames.length = i.propertyNames ∨
            i.propertyNames.take propertyNames.length = propertyNames)) ∧
        ∃ ps, resolveProps col propertyNames = some ps ∧
          (∀ p ∈ ps, p.dataType.isDynamic = true → p.dataType = .string) ∧
          (hashValue = true → ∃ p ∈ ps, p.dataType = .string) ∧
          (hashValue = false → ∀ p ∈ ps.dropLast, p.dataType ≠ .string))) ∧
    ((resolveProps col propertyNames).isSome ↔
      ∀ n ∈ propertyNames, ∃ p ∈ col.properties, p.name = n) ∧
    (∀ e, addIndex col propertyNames unique hashValue = .error e →
      ∃ msg, e = .illegalArg msg) := by
  refine ⟨?_, resolveProps_isSome_iff col propertyNames, ?_⟩
  · rw [addIndex]
    by_cases h1 : propertyNames.isEmpty
    · rw [if_pos h1]
      rw [List.isEmpty_iff] at h1
      simp [h1]
    · rw [if_neg h1]
      rw [List.isEmpty_iff] at h1
      by_cases h2 : propertyNames.length > 3
      · rw [if_pos h2]
        constructor
        · rintro ⟨col2, hcol2⟩
          exact absurd hcol2 (by simp)
        · rintro ⟨_, hlen, _⟩
          omega
      · rw [if_neg h2]
        by_cases h3 : col.indexes.any (fun i => isDuplicateIndex i propertyNames)
        · rw [if_pos h3]
          constructor
          · rintro ⟨col2, hcol2⟩
            exact absurd hcol2 (by simp)
          · rintro ⟨_, _, hdup, _⟩
            obtain ⟨i, hi, hdupi⟩ := List.any_eq_true.mp h3
            exact ((hdup i hi)
              ((isDuplicateIndex_iff i propertyNames).mp hdupi)).elim
        · rw [if_neg h3]
          rcases hres : resolveProps col propertyNames with _ | ps
          · constructor
            · rintro ⟨col2, hcol2⟩
              exact absurd hcol2 (by simp)
            · rintro ⟨_, _, _, ps, hps, _⟩
              exact absurd hps (by simp)
          · dsimp only
            by_cases h4 : ps.any (fun p => p.dataType.isDynamic ∧ p.dataType ≠ .string)
            · rw [if_pos h4]
              constructor
              · rintro ⟨col2, hcol2⟩
                exact absurd hcol2 (by simp)
              · rintro ⟨_, _, _, ps2, hps2, hdyn, _⟩
                obtain rfl : ps = ps2 := by simpa using hps2
                obtain ⟨p, hp, hpd⟩ := List.any_eq_true.mp h4
                have hpd2 := (decide_eq_true_eq).mp hpd
                exact (hpd2.2 (hdyn p hp hpd2.1)).elim
            · rw [if_neg h4]
              by_cases h5 : ¬ ps.any (fun p => p.dataType = .string) ∧ hashValue
              · rw [if_pos h5]
                constructor
                · rintro ⟨col2, hcol2⟩
                  exact absurd hcol2 (by simp)
                · rintro ⟨_, _, _, ps2, hps2, _, hhash, _⟩
                  obtain rfl : ps = ps2 := by simpa using hps2
                  obtain ⟨p, hp, hpstr⟩ := hhash (by simpa using h5.2)
                  exact (h5.1
                    (List.any_eq_true.mpr ⟨p, hp, by simpa using hpstr⟩)).elim
              · rw [if_neg h5]
                by_cases h6 : ¬ hashValue ∧
                    ps.dropLast.any (fun p => p.dataType = .string)
                · rw [if_pos h6]
                  constructor
                  · rintro ⟨col2, hcol2⟩
                    exact absurd hcol2 (by simp)
                  · rintro ⟨_, _, _, ps2, hps2, _, _, hterm⟩
                    obtain rfl : ps = ps2 := by simpa using hps2
                    obtain ⟨p, hp, hpstr⟩ := List.any_eq_true.mp h6.2
                    exact (hterm (by simpa using h6.1) p hp
                      (by simpa using hpstr)).elim
                · rw [if_neg h6]
                  constructor
                  · intro _
                    refine ⟨h1, by omega, ?_, ⟨ps, rfl, ?_, ?_, ?_⟩⟩
                    · intro i hi hcontra
                      have h3s : ∀ i2 ∈ col.indexes,
                          isDuplicateIndex i2 propertyNames = false := by
                        simpa using h3
                      have htrue := (isDuplicateIndex_iff i propertyNames).mpr hcontra
                      rw [h3s i hi] at htrue
                      exact Bool.false_ne_true htrue
                    · intro p hp hdyn
                      have h4s : ∀ x ∈ ps, x.dataType.isDynamic = true →
                          x.dataType = DataType.string := by
                        simpa using h4
                      exact h4s p hp hdyn
                    · intro hh
                      by_contra hnone
                      push_neg at hnone
                      refine h5 ⟨?_, hh⟩
                      simp only [Bool.not_eq_true, List.any_eq_false,
                        decide_eq_false_iff_not]
                      exact hnone
                    · intro hh p hp hstr
                      refine h6 ⟨by simp [hh], ?_⟩
                      exact List.any_eq_true.mpr ⟨p, hp, by simpa using hstr⟩
                  · intro _
                    exact ⟨_, rfl⟩
  · intro e he
    rw [addIndex] at he
    by_cases h1 : propertyNames.isEmpty
    · rw [if_pos h1] at he
      exact ⟨_, by simpa using he.symm⟩
    · rw [if_neg h1] at he
      by_cases h2 : propertyNames.length > 3
      · rw [if_pos h2] at he
        exact ⟨_, by simpa using he.symm⟩
      · rw [if_neg h2] at he
        by_cases h3 : col.indexes.any (fun i => isDuplicateIndex i propertyNames)
        · rw [if_pos h3] at he
          exact ⟨_, by simpa using he.symm⟩
        · rw [if_neg h3] at he
          rcases hres : resolveProps col propertyNames with _ | ps <;>
            rw [hres] at he <;> dsimp only at he
          · exact ⟨_, by simpa using he.symm⟩
          · by_cases h4 : ps.any (fun p => p.dataType.isDynamic ∧ p.dataType ≠ .string)
            · rw [if_pos h4] at he
              exact ⟨_, by simpa using he.symm⟩
            · rw [if_neg h4] at he
              by_cases h5 : ¬ ps.any (fun p => p.dataType = .string) ∧ hashValue
              · rw [if_pos h5] at he
                exact ⟨_, by simpa using he.symm⟩
              · rw [if_neg h5] at he
                by_cases h6 : ¬ hashValue ∧
                    ps.dropLast.any (fun p => p.dataType = .string)
                · rw [if_pos h6] at he
                  exact ⟨_, by simpa using he.symm⟩
                · rw [if_neg h6] at he
                  exact absurd he (by simp)

/-- C9 witness: on a schema with an `Int` and a terminal `String` property,
`add_index ["int", "str"]` without hashing succeeds; the iff's conditions
hold concretely. -/
theorem c9_add_index_validation_witness :
    ∃ col2, addIndex ⟨"col", [⟨"int", .int⟩, ⟨"str", .string⟩], []⟩
      ["int", "str"] false false = .ok col2 :=
  (c9_add_index_validation ⟨"col", [⟨"int", .int⟩, ⟨"str", .string⟩], []⟩
    ["int", "str"] false false).1.mpr (by decide)

end Isar
